import Mathlib

/-!
Verification of the tree-builder (`insert`) and serializer (`format`, `quote`)
of cmd/xcompose/xcompose.go.

The Go program builds a nested `map[string]interface{}` whose values are either
`string` (a leaf) or another `map[string]interface{}` (an interior node), and
serializes it as a DefaultKeyBindings.dict text block with lexicographically
sorted keys.

Embedding choices:
- a Go map value is modelled as an association list with unique keys
  (`Tree := List (String × Node)`); Go map iteration order is irrelevant here
  because `format` sorts the keys before emitting, and map equality is captured
  by the `EquivT` relation together with the `WFn` (no-duplicate-keys)
  invariant that every real Go map satisfies;
- `sort.Strings` sorts byte-wise lexicographically; on valid UTF-8, byte-wise
  order coincides with code-point lexicographic order, modelled by `strLe`;
- the output sink (`io.Writer`) is modelled by a success predicate and an
  error value per write attempt; each `fmt.Fprint*` call in `format` issues
  exactly one `Write` on the sink;
- `strconv.Quote` is modelled per its algorithm, parameterized by the external
  `unicode.IsPrint` table; `strings.ToUpper` is parameterized by the external
  per-rune uppercase table;
- Go's reference semantics for maps (needed for the `insert` into a nil map)
  is modelled separately by an explicit heap (`GHeap`, `insertH`).
-/

namespace Xcompose

/-- Node of the nested dictionary: a Go `interface{}` value that is either a
`string` (leaf) or a `map[string]interface{}` (interior), per the type switch
in `format` and the type assertion in `insert`. -/
inductive Node where
  | leaf : String → Node
  | node : List (String × Node) → Node

/-- Tree is the contents of one `map[string]interface{}`, modelled as an
association list (first binding wins on lookup; real Go maps never hold
duplicate keys, see `WFn`). -/
abbrev Tree := List (String × Node)

/-- Map read `dst[k]`: first binding for `k`, if any. -/
def lookupA : Tree → String → Option Node
  | [], _ => none
  | (k', v') :: rest, k => if k' = k then some v' else lookupA rest k

/-- Map write `dst[k] = v`: replace the first binding for `k` in place, or
append a new binding if `k` is absent. -/
def setKey : Tree → String → Node → Tree
  | [], k, v => [(k, v)]
  | (k', v') :: rest, k, v =>
    if k' = k then (k, v) :: rest else (k', v') :: setKey rest k v

/-- Keys of the map, in association-list order. -/
def keysOf (cs : Tree) : List String := cs.map Prod.fst

/-- Translation of `insert` (xcompose.go:158-179) acting on a (non-nil) map
value.  `len(path) == 0` returns at once; `len(path) == 1` overwrites
`dst[path[0]]` with the leaf; otherwise the child at `path[0]` is created
empty when absent, descended into when it is a map, and the call silently
returns when the type assertion to a map fails (the child is a leaf). -/
def insert (dst : Tree) (val : String) : List String → Tree
  | [] => dst
  | [k] => setKey dst k (.leaf val)
  | k :: k₂ :: rest =>
    match lookupA dst k with
    | none => setKey dst k (.node (insert [] val (k₂ :: rest)))
    | some (.node m) => setKey dst k (.node (insert m val (k₂ :: rest)))
    | some (.leaf _) => dst

/-- Resolve a non-empty path to the node it denotes, descending through
interior nodes only. -/
def resolve (cs : Tree) : List String → Option Node
  | [] => none
  | [k] => lookupA cs k
  | k :: k₂ :: rest =>
    match lookupA cs k with
    | some (.node m) => resolve m (k₂ :: rest)
    | _ => none

/-- Byte-wise (= code-point-wise, on valid UTF-8) lexicographic order on
character lists, as used by Go's `sort.Strings` comparison `s[i] < s[j]`. -/
def charListLe : List Char → List Char → Bool
  | [], _ => true
  | _ :: _, [] => false
  | a :: as, b :: bs =>
    if a.toNat < b.toNat then true
    else if b.toNat < a.toNat then false
    else charListLe as bs

/-- String comparison of `sort.Strings`. -/
def strLe (a b : String) : Bool := charListLe a.data b.data

/-- Model of the key collection and `sort.Strings(keys)` step of `format`
(xcompose.go:186-190).  `sort.Strings` is modelled by insertion sort: a list
of strings that is sorted under the total order `strLe` and is a permutation
of the input is unique (equal keys are identical strings), so the output is
independent of the sorting algorithm and this model is observationally exact. -/
def sortedKeys (cs : Tree) : List String :=
  (keysOf cs).insertionSort (fun a b => strLe a b = true)

theorem charListLe_total : ∀ as bs, charListLe as bs = true ∨ charListLe bs as = true := by
  intro as
  induction as with
  | nil => intro bs; left; rfl
  | cons a as ih =>
    intro bs
    cases bs with
    | nil => right; rfl
    | cons b bs =>
      by_cases hab : a.toNat < b.toNat
      · left; simp [charListLe, hab]
      · by_cases hba : b.toNat < a.toNat
        · right; simp [charListLe, hba]
        · rcases ih bs with h | h
          · left; simp [charListLe, hab, hba, h]
          · right; simp [charListLe, hab, hba, h]

theorem char_eq_of_toNat_eq {a b : Char} (h : a.toNat = b.toNat) : a = b := by
  apply Char.ext
  apply UInt32.eq_of_toBitVec_eq
  exact BitVec.toNat_injective h

theorem charListLe_antisymm : ∀ as bs, charListLe as bs = true → charListLe bs as = true → as = bs := by
  intro as
  induction as with
  | nil =>
    intro bs _ hba
    cases bs with
    | nil => rfl
    | cons b bs => simp [charListLe] at hba
  | cons a as ih =>
    intro bs hab hba
    cases bs with
    | nil => simp [charListLe] at hab
    | cons b bs =>
      by_cases h1 : a.toNat < b.toNat
      · simp [charListLe, Nat.lt_asymm h1, h1] at hba
      · by_cases h2 : b.toNat < a.toNat
        · simp [charListLe, h1, h2] at hab
        · have hch : a = b := char_eq_of_toNat_eq (by omega)
          simp [charListLe, h1, h2] at hab hba
          rw [hch, ih bs hab hba]

theorem charListLe_trans : ∀ as bs cs, charListLe as bs = true → charListLe bs cs = true →
    charListLe as cs = true := by
  intro as
  induction as with
  | nil => intro bs cs _ _; rfl
  | cons a as ih =>
    intro bs cs hab hbc
    cases bs with
    | nil => simp [charListLe] at hab
    | cons b bs =>
      cases cs with
      | nil => simp [charListLe] at hbc
      | cons c cs =>
        simp only [charListLe] at hab hbc ⊢
        by_cases h1 : a.toNat < b.toNat
        · by_cases h2 : b.toNat < c.toNat
          · simp [show a.toNat < c.toNat by omega]
          · by_cases h3 : c.toNat < b.toNat
            · simp [h2, h3] at hbc
            · simp [show a.toNat < c.toNat by omega]
        · by_cases h4 : b.toNat < a.toNat
          · simp [h1, h4] at hab
          · by_cases h2 : b.toNat < c.toNat
            · simp [show a.toNat < c.toNat by omega]
            · by_cases h3 : c.toNat < b.toNat
              · simp [h2, h3] at hbc
              · simp [h1, h4] at hab
                simp [h2, h3] at hbc
                simp [show ¬ a.toNat < c.toNat by omega, show ¬ c.toNat < a.toNat by omega]
                exact ih bs cs hab hbc

theorem strLe_total (a b : String) : strLe a b = true ∨ strLe b a = true :=
  charListLe_total a.data b.data

theorem strLe_antisymm {a b : String} (hab : strLe a b = true) (hba : strLe b a = true) :
    a = b :=
  String.ext (charListLe_antisymm a.data b.data hab hba)

theorem strLe_trans {a b c : String} (hab : strLe a b = true) (hbc : strLe b c = true) :
    strLe a c = true :=
  charListLe_trans a.data b.data c.data hab hbc

instance : IsAntisymm String (fun a b => strLe a b = true) :=
  ⟨fun _ _ h h' => strLe_antisymm h h'⟩

instance : IsTotal String (fun a b => strLe a b = true) :=
  ⟨strLe_total⟩

instance : IsTrans String (fun a b => strLe a b = true) :=
  ⟨fun _ _ _ h h' => strLe_trans h h'⟩

theorem sizeOf_lookupA {cs : Tree} {k : String} {v : Node}
    (h : lookupA cs k = some v) : sizeOf v < sizeOf cs := by
  induction cs with
  | nil => simp [lookupA] at h
  | cons p rest ih =>
    obtain ⟨k', v'⟩ := p
    simp only [lookupA] at h
    by_cases he : k' = k
    · simp [he] at h
      subst h
      simp
      omega
    · have := ih (by simpa [he] using h)
      simp
      omega

/-- Indentation string `strings.Repeat("\t", d)`. -/
def tabs (d : Nat) : String := String.mk (List.replicate d '\t')

/-!
Write payloads issued by `format` (xcompose.go:181-221), in order.  Every
`fmt.Fprint*` call in `format` performs exactly one `Write` on the sink, so
the serializer's interaction with the sink is fully described by this list:
`"{\n"` (Fprintln, line 182), then for each sorted key the prefix
`<tabs(depth+1)><quote(k)> = ` (Fprintf, line 192) followed by either the leaf
payload `("insertText:", <quote(v)>);\n` (Fprintf, line 198) or the writes of
the recursive call (line 203), then `<tabs(depth)>}` (Fprintf, line 209), `";"`
when `depth != 0` (Fprint, line 214), and `"\n"` (Fprintln, line 219).
The `quote` function is an opaque parameter `q` here; the claims about
`format` hold for any quoting function.  The key loop (lines 191-208) is
rendered as the mutually recursive `entriesChunks`.
-/
mutual

/-- Writes of one `format(w, dict, depth)` call. -/
def dictChunks (q : String → String) (cs : Tree) (d : Nat) : List String :=
  "\x7b\n" ::
    entriesChunks q cs (sortedKeys cs) d ++
      [tabs d ++ "\x7d"] ++ (if d ≠ 0 then [";"] else []) ++ ["\n"]
termination_by (sizeOf cs, 1, 0)

/-- Writes of the key loop of `format` for the remaining sorted keys `ks`. -/
def entriesChunks (q : String → String) (cs : Tree) (ks : List String) (d : Nat) :
    List String :=
  match ks with
  | [] => []
  | k :: ks' =>
    (tabs (d + 1) ++ q k ++ " = ") ::
      ((match hl : lookupA cs k with
        | some (.leaf v) => ["(\x22insertText:\x22, " ++ q v ++ ");\n"]
        | some (.node m) => dictChunks q m (d + 1)
        | none => []) ++
        entriesChunks q cs ks' d)
termination_by (sizeOf cs, 0, ks.length)
decreasing_by
  · have := sizeOf_lookupA hl
    simp at this
    exact Prod.Lex.left _ _ (by omega)
  · exact Prod.Lex.right _ (Prod.Lex.right _ (by simp))

end

/-- Concatenation of the write payloads: the full text `format` produces when
every write succeeds. -/
def concatL (l : List String) : String := l.foldr (fun a b => a ++ b) ""

/-- Full output of `format(w, dict, depth)` on an always-succeeding sink. -/
def fmtDict (q : String → String) (cs : Tree) (d : Nat) : String :=
  concatL (dictChunks q cs d)

/-!
Stateful sink model.  An `io.Writer` is modelled by a success predicate
`ok : Nat → Bool` and an error value `er : Nat → String` per write attempt
(attempts are numbered from 0).  `format` checks the returned error after
every single write and after every recursive call, and returns it
immediately (xcompose.go lines 183, 193, 199, 204, 210, 215, 220), so its
observable behavior on the sink is: attempt the writes of `dictChunks` in
order, stopping at the first failure and propagating that error unchanged.
-/

/-- State of the sink: successfully written payloads, and the number of write
attempts made so far. -/
structure WState where
  out : List String
  idx : Nat

/-- One write attempt against the sink. -/
def wwrite (ok : Nat → Bool) (er : Nat → String) (s : String) (w : WState) :
    WState × Option String :=
  if ok w.idx then ({ out := w.out ++ [s], idx := w.idx + 1 }, none)
  else ({ out := w.out, idx := w.idx + 1 }, some (er w.idx))

/-- Attempt a list of writes in order, aborting at the first failure with the
sink's error. -/
def runWrites (ok : Nat → Bool) (er : Nat → String) :
    List String → WState → WState × Option String
  | [], w => (w, none)
  | s :: rest, w =>
    match wwrite ok er s w with
    | (w', none) => runWrites ok er rest w'
    | (w', some e) => (w', some e)

mutual

/-- Translation of `format(w, dict, depth) error` (xcompose.go:181-221)
against the sink: final sink state and returned error.  Each `fmt.Fprint*`
call performs one write; the error is checked after every write and after
every recursive call and returned immediately (lines 183, 193, 199, 204,
210, 215, 220). -/
def formatW (q : String → String) (ok : Nat → Bool) (er : Nat → String)
    (cs : Tree) (d : Nat) (w : WState) : WState × Option String :=
  match wwrite ok er "\x7b\n" w with
  | (w₁, some e) => (w₁, some e)
  | (w₁, none) =>
    match entriesW q ok er cs (sortedKeys cs) d w₁ with
    | (w₂, some e) => (w₂, some e)
    | (w₂, none) =>
      match wwrite ok er (tabs d ++ "\x7d") w₂ with
      | (w₃, some e) => (w₃, some e)
      | (w₃, none) =>
        match (if d ≠ 0 then wwrite ok er ";" w₃ else (w₃, none)) with
        | (w₄, some e) => (w₄, some e)
        | (w₄, none) => wwrite ok er "\n" w₄
termination_by (sizeOf cs, 1, 0)

/-- Key loop of `format` (xcompose.go:191-208) against the sink. -/
def entriesW (q : String → String) (ok : Nat → Bool) (er : Nat → String)
    (cs : Tree) (ks : List String) (d : Nat) (w : WState) : WState × Option String :=
  match ks with
  | [] => (w, none)
  | k :: ks' =>
    match wwrite ok er (tabs (d + 1) ++ q k ++ " = ") w with
    | (w₁, some e) => (w₁, some e)
    | (w₁, none) =>
      match hl : lookupA cs k with
      | some (.leaf v) =>
        match wwrite ok er ("(\x22insertText:\x22, " ++ q v ++ ");\n") w₁ with
        | (w₂, some e) => (w₂, some e)
        | (w₂, none) => entriesW q ok er cs ks' d w₂
      | some (.node m) =>
        match formatW q ok er m (d + 1) w₁ with
        | (w₂, some e) => (w₂, some e)
        | (w₂, none) => entriesW q ok er cs ks' d w₂
      | none => entriesW q ok er cs ks' d w₁
termination_by (sizeOf cs, 0, ks.length)
decreasing_by
  · exact Prod.Lex.right _ (Prod.Lex.right _ (by simp))
  · have hs := sizeOf_lookupA hl
    simp at hs
    exact Prod.Lex.left _ _ (by omega)
  · exact Prod.Lex.right _ (Prod.Lex.right _ (by simp))
  · exact Prod.Lex.right _ (Prod.Lex.right _ (by simp))

end

/-!
Model of `quote` (xcompose.go:223-229) and of the `strconv.Quote` it calls.
`strconv.Quote` appends `"` then, per rune: a backslash escape for `"` and
`\\`; the rune itself when `unicode.IsPrint` holds; otherwise one of the named
escapes, or `\xhh` for other control bytes and 0x7f, or `\uhhhh` below
0x10000, or `\Uhhhhhhhh`.  `unicode.IsPrint` is an external table, taken here
as a parameter `isPrint`; `strings.ToUpper` maps each rune through the
external `unicode.ToUpper` table, taken as a parameter `up`.  Input strings
are sequences of valid runes (Go produced them with `strconv.Unquote`), so
the invalid-UTF-8 byte case of `strconv.Quote` cannot arise and is not
modelled. -/

/-- Lower-case hexadecimal digit, as in strconv's `lowerhex` table. -/
def lowerHexDigit (n : Nat) : Char :=
  if n < 10 then Char.ofNat (48 + n) else Char.ofNat (87 + n)

/-- Big-endian fixed-width hex rendering used by `\x`, `\u` and `\U`. -/
def hexDigits (v : Nat) (count : Nat) : List Char :=
  ((List.range count).reverse).map (fun i => lowerHexDigit (v / 16 ^ i % 16))

/-- Escape of a single rune, per strconv's `appendEscapedRune` with
`quote = '"'`, `ASCIIonly = false`, `graphicOnly = false`. -/
def escapeRune (isPrint : Char → Bool) (c : Char) : List Char :=
  if c = '\x22' ∨ c = '\\' then ['\\', c]
  else if isPrint c then [c]
  else if c = '\x07' then ['\\', 'a']
  else if c = '\x08' then ['\\', 'b']
  else if c = '\x0c' then ['\\', 'f']
  else if c = '\n' then ['\\', 'n']
  else if c = '\x0d' then ['\\', 'r']
  else if c = '\t' then ['\\', 't']
  else if c = '\x0b' then ['\\', 'v']
  else if c.toNat < 32 ∨ c.toNat = 127 then '\\' :: 'x' :: hexDigits c.toNat 2
  else if c.toNat < 65536 then '\\' :: 'u' :: hexDigits c.toNat 4
  else '\\' :: 'U' :: hexDigits c.toNat 8

/-- Model of `strconv.Quote`. -/
def goQuote (isPrint : Char → Bool) (s : List Char) : List Char :=
  '\x22' :: s.flatMap (escapeRune isPrint) ++ ['\x22']

/-- Translation of `quote` (xcompose.go:223-229): `strconv.Quote`, then
`strings.ToUpper` of the whole token when the result starts with the Unicode
escape introducer `"\u`. -/
def quote (isPrint : Char → Bool) (up : Char → Char) (s : List Char) : List Char :=
  let qs := goQuote isPrint s
  if qs.take 3 = ['\x22', '\\', 'u'] then qs.map up else qs

/-- Concrete stand-in for the `unicode.IsPrint` table, used only to evaluate
witnesses on concrete inputs: printable ASCII. -/
def isPrintAscii (c : Char) : Bool := decide (32 ≤ c.toNat ∧ c.toNat < 127)

/-- Concrete quoting function (ASCII `unicode.IsPrint` stand-in and ASCII
upper-casing), used only to evaluate witnesses on concrete inputs. -/
def quoteStr (s : String) : String := String.mk (quote isPrintAscii Char.toUpper s.data)

/-!
Heap model of Go map reference semantics, for the behavior of `insert` on a
nil map (xcompose.go:162-164): `dst = make(map[string]interface{})` rebinds
the callee's local variable to a freshly allocated map, so all subsequent
writes land in an object the caller never sees.  A heap is a list of map
objects addressed by index; a stored value is a string or a reference to
another map.  The caller's `dst` argument is `none` for a nil map.
-/

/-- Value stored in a Go map: a string, or a reference to another map. -/
inductive GVal where
  | str : String → GVal
  | ref : Nat → GVal

/-- Heap of map objects; the address of a map is its index. -/
structure GHeap where
  maps : List (List (String × GVal))

/-- Allocation `make(map[string]interface{})`: a fresh empty map at a fresh
address. -/
def halloc (h : GHeap) : GHeap × Nat :=
  (⟨h.maps ++ [[]]⟩, h.maps.length)

/-- Association-list lookup in one heap map object. -/
def lookupG : List (String × GVal) → String → Option GVal
  | [], _ => none
  | (k', v') :: rest, k => if k' = k then some v' else lookupG rest k

/-- Association-list update in one heap map object. -/
def setKeyG : List (String × GVal) → String → GVal → List (String × GVal)
  | [], k, v => [(k, v)]
  | (k', v') :: rest, k, v =>
    if k' = k then (k, v) :: rest else (k', v') :: setKeyG rest k v

/-- Heap read `dst[k]`. -/
def hget (h : GHeap) (r : Nat) (k : String) : Option GVal :=
  match h.maps[r]? with
  | some m => lookupG m k
  | none => none

/-- Heap write `dst[k] = v`. -/
def hset (h : GHeap) (r : Nat) (k : String) (v : GVal) : GHeap :=
  ⟨h.maps.set r (setKeyG (h.maps.getD r []) k v)⟩

/-- Translation of `insert` (xcompose.go:158-179) with explicit reference
semantics.  `dst = none` is a nil map: after the `len(path) == 0` check, the
code allocates a fresh map and rebinds its local `dst` to it; the caller's
variable is unaffected (Go map headers are passed by value). -/
def insertH (h : GHeap) (dst : Option Nat) (val : String) : List String → GHeap
  | [] => h
  | [k] =>
    let p := match dst with
      | none => halloc h
      | some r => (h, r)
    hset p.1 p.2 k (.str val)
  | k :: k₂ :: rest =>
    let p := match dst with
      | none => halloc h
      | some r => (h, r)
    match hget p.1 p.2 k with
    | none =>
      let p' := halloc p.1
      insertH (hset p'.1 p.2 k (.ref p'.2)) (some p'.2) val (k₂ :: rest)
    | some (.ref c) => insertH p.1 (some c) val (k₂ :: rest)
    | some (.str _) => p.1

/-!
Spec-side relations and predicates used to state the claims.
-/

mutual

/-- Two maps are equal as Go maps (same keys, recursively equal values)
regardless of the association-list order their entries were inserted in. -/
inductive EquivT : Node → Node → Prop where
  | leaf (v : String) : EquivT (.leaf v) (.leaf v)
  | node (cs₁ cs₂ : Tree) :
      (∀ k, OEquiv (lookupA cs₁ k) (lookupA cs₂ k)) → EquivT (.node cs₁) (.node cs₂)

inductive OEquiv : Option Node → Option Node → Prop where
  | none : OEquiv none none
  | some (a b : Node) : EquivT a b → OEquiv (some a) (some b)

end

/-- Well-formedness invariant of every tree that models a real Go map: at
every level the keys are distinct. -/
inductive WFn : Node → Prop where
  | leaf (v : String) : WFn (.leaf v)
  | node (cs : Tree) : (keysOf cs).Nodup → (∀ kv ∈ cs, WFn kv.2) → WFn (.node cs)

/-- Join a list of output lines, each terminated by a newline. -/
def joinLines (ls : List String) : String := concatL (ls.map (fun l => l ++ "\n"))

/-- Transcription of the claimed shape of the entry lines of one block at
nesting depth `d` (claim C4): each entry is either a leaf assignment line
indented by exactly `d+1` tabs and terminated by `);`, or a nested block
opening on the key line (indented by exactly `d+1` tabs), whose body satisfies
the same shape at depth `d+1`, and whose closing brace line is indented by
exactly `d+1` tabs and immediately followed by a semicolon. -/
inductive EntryLines (q : String → String) : Nat → List String → Prop where
  | nil (d : Nat) : EntryLines q d []
  | leaf (d : Nat) (k v : String) (rest : List String) : EntryLines q d rest →
      EntryLines q d
        ((tabs (d + 1) ++ q k ++ " = (\x22insertText:\x22, " ++ q v ++ ");") :: rest)
  | dict (d : Nat) (k : String) (body rest : List String) :
      EntryLines q (d + 1) body → EntryLines q d rest →
      EntryLines q d
        ((tabs (d + 1) ++ q k ++ " = \x7b") :: body ++ (tabs (d + 1) ++ "\x7d;") :: rest)

/-!
Basic equations and helper lemmas.
-/

theorem dictChunks_eq (q : String → String) (cs : Tree) (d : Nat) :
    dictChunks q cs d =
      "\x7b\n" ::
        entriesChunks q cs (sortedKeys cs) d ++
          [tabs d ++ "\x7d"] ++ (if d ≠ 0 then [";"] else []) ++ ["\n"] := by
  rw [dictChunks]

theorem entriesChunks_nil (q : String → String) (cs : Tree) (d : Nat) :
    entriesChunks q cs [] d = [] := by
  rw [entriesChunks]

theorem entriesChunks_cons_leaf {cs : Tree} {k v : String}
    (q : String → String) (ks : List String) (d : Nat)
    (h : lookupA cs k = some (.leaf v)) :
    entriesChunks q cs (k :: ks) d =
      (tabs (d + 1) ++ q k ++ " = ") ::
        ("(\x22insertText:\x22, " ++ q v ++ ");\n") :: entriesChunks q cs ks d := by
  rw [entriesChunks]
  split <;> simp_all

theorem entriesChunks_cons_node {cs : Tree} {k : String} {m : Tree}
    (q : String → String) (ks : List String) (d : Nat)
    (h : lookupA cs k = some (.node m)) :
    entriesChunks q cs (k :: ks) d =
      (tabs (d + 1) ++ q k ++ " = ") ::
        (dictChunks q m (d + 1) ++ entriesChunks q cs ks d) := by
  rw [entriesChunks]
  split <;> simp_all

theorem entriesChunks_cons_none {cs : Tree} {k : String}
    (q : String → String) (ks : List String) (d : Nat)
    (h : lookupA cs k = none) :
    entriesChunks q cs (k :: ks) d =
      (tabs (d + 1) ++ q k ++ " = ") :: entriesChunks q cs ks d := by
  rw [entriesChunks]
  split <;> simp_all

theorem concatL_nil : concatL [] = "" := rfl

theorem concatL_cons (a : String) (l : List String) :
    concatL (a :: l) = a ++ concatL l := rfl

theorem concatL_append (l₁ l₂ : List String) :
    concatL (l₁ ++ l₂) = concatL l₁ ++ concatL l₂ := by
  induction l₁ with
  | nil =>
    show concatL l₂ = "" ++ concatL l₂
    rw [String.empty_append]
  | cons a l ih =>
    show a ++ concatL (l ++ l₂) = (a ++ concatL l) ++ concatL l₂
    rw [ih, String.append_assoc]

theorem joinLines_nil : joinLines [] = "" := rfl

theorem joinLines_cons (a : String) (l : List String) :
    joinLines (a :: l) = a ++ "\n" ++ joinLines l := rfl

theorem joinLines_append (l₁ l₂ : List String) :
    joinLines (l₁ ++ l₂) = joinLines l₁ ++ joinLines l₂ := by
  unfold joinLines
  rw [List.map_append, concatL_append]

theorem lookupA_setKey_self (cs : Tree) (k : String) (v : Node) :
    lookupA (setKey cs k v) k = some v := by
  induction cs with
  | nil => simp [setKey, lookupA]
  | cons p rest ih =>
    obtain ⟨k', v'⟩ := p
    by_cases h : k' = k
    · simp [setKey, h, lookupA]
    · simp [setKey, h, lookupA, ih]

theorem lookupA_setKey_ne (cs : Tree) {k k' : String} (v : Node) (h : k ≠ k') :
    lookupA (setKey cs k v) k' = lookupA cs k' := by
  induction cs with
  | nil => simp [setKey, lookupA, h]
  | cons p rest ih =>
    obtain ⟨k₀, v₀⟩ := p
    by_cases h0 : k₀ = k
    · simp [setKey, h0, lookupA, h]
    · simp [setKey, h0, lookupA, ih]

theorem setKey_self {cs : Tree} {k : String} {v : Node} (h : lookupA cs k = some v) :
    setKey cs k v = cs := by
  induction cs with
  | nil => simp [lookupA] at h
  | cons p rest ih =>
    obtain ⟨k', v'⟩ := p
    by_cases h0 : k' = k
    · simp [lookupA, h0] at h
      simp [setKey, h0, h]
    · simp [lookupA, h0] at h
      simp [setKey, h0, ih h]

theorem setKey_setKey (cs : Tree) (k : String) (v w : Node) :
    setKey (setKey cs k v) k w = setKey cs k w := by
  induction cs with
  | nil => simp [setKey]
  | cons p rest ih =>
    obtain ⟨k', v'⟩ := p
    by_cases h0 : k' = k
    · simp [setKey, h0]
    · simp [setKey, h0, ih]

/-- C9: for every tree and every value, `insert` with an empty path is a
silent no-op, both on the value model of the map and on the reference-heap
model (where not even an allocation happens); no error is signalled (the
function returns normally, having no error result at all). -/
theorem insert_empty_path_noop (t : Tree) (v : String) :
    insert t v [] = t ∧ ∀ (h : GHeap) (dst : Option Nat), insertH h dst v [] = h :=
  ⟨rfl, fun _ _ => rfl⟩

/-- C3: for a path of length 1, `insert` sets `tree[k]` to `Leaf(value)`,
overwriting whatever was there before and leaving every other key unchanged;
consequently inserting `v₁` then `v₂` at the same length-1 path makes the
path resolve to `v₂` (last write wins). -/
theorem insert_single_overwrites (t : Tree) (k v₁ v₂ : String) :
    lookupA (insert t v₁ [k]) k = some (.leaf v₁) ∧
    (∀ k', k' ≠ k → lookupA (insert t v₁ [k]) k' = lookupA t k') ∧
    resolve (insert (insert t v₁ [k]) v₂ [k]) [k] = some (.leaf v₂) := by
  refine ⟨?_, ?_, ?_⟩
  · simp [insert, lookupA_setKey_self]
  · intro k' hne
    simp [insert, lookupA_setKey_ne _ _ (Ne.symm hne)]
  · simp [insert, resolve, setKey_setKey, lookupA_setKey_self]

theorem insert_single_overwrites_witness :
    lookupA (insert [("a", Node.leaf "old")] "v1" ["a"]) "a" = some (.leaf "v1") ∧
    lookupA (insert [("a", Node.leaf "old")] "v1" ["a"]) "b" =
      lookupA [("a", Node.leaf "old")] "b" ∧
    resolve (insert (insert [("a", Node.leaf "old")] "v1" ["a"]) "v2" ["a"]) ["a"] =
      some (.leaf "v2") := by
  obtain ⟨h1, h2, h3⟩ := insert_single_overwrites [("a", Node.leaf "old")] "a" "v1" "v2"
  exact ⟨h1, h2 "b" (by decide), h3⟩

/-- C8: `insert` is idempotent: inserting the same `(path, value)` pair twice
in succession produces the same tree as inserting it once. -/
theorem insert_idempotent (t : Tree) (v : String) (p : List String) :
    insert (insert t v p) v p = insert t v p := by
  induction p generalizing t with
  | nil => rfl
  | cons k rest ih =>
    cases rest with
    | nil => simp [insert, setKey_setKey]
    | cons k₂ rest' =>
      cases hl : lookupA t k with
      | none =>
        simp [insert, hl, lookupA_setKey_self, setKey_setKey, ih]
      | some nd =>
        cases nd with
        | leaf w => simp [insert, hl]
        | node m => simp [insert, hl, lookupA_setKey_self, setKey_setKey, ih]

/-- C2: if some nonempty proper prefix of the path resolves to a Leaf, then
`insert` with the longer path is a silent no-op: the tree (including the
existing leaf) is left exactly unchanged, and no error is raised (the
function has no error result at all). -/
theorem insert_leaf_prefix_silent_noop (v w : String) :
    ∀ (pre : List String) (t : Tree) (suf : List String), pre ≠ [] → suf ≠ [] →
      resolve t pre = some (.leaf w) → insert t v (pre ++ suf) = t := by
  intro pre
  induction pre with
  | nil => intro t suf h; exact absurd rfl h
  | cons k pre' ih =>
    intro t suf _ hsuf hres
    cases pre' with
    | nil =>
      simp [resolve] at hres
      cases suf with
      | nil => exact absurd rfl hsuf
      | cons s suf' => simp [insert, hres]
    | cons k₂ pre'' =>
      simp only [resolve] at hres
      cases hlk : lookupA t k with
      | none => rw [hlk] at hres; simp at hres
      | some nd =>
        cases nd with
        | leaf lw => rw [hlk] at hres; simp at hres
        | node m =>
          rw [hlk] at hres
          have hm := ih m suf (by simp) hsuf hres
          simp only [List.cons_append] at hm ⊢
          simp [insert, hlk, hm, setKey_self hlk]

theorem insert_leaf_prefix_silent_noop_witness :
    insert [("a", Node.leaf "x")] "y" ["a", "b"] = [("a", Node.leaf "x")] ∧
    lookupA [("a", Node.leaf "x")] "a" = some (.leaf "x") :=
  ⟨insert_leaf_prefix_silent_noop "y" "x" ["a"] [("a", Node.leaf "x")] ["b"]
      (by decide) (by decide) (by rfl),
    rfl⟩

/-!
Heap lemmas for C10.  `HeapOk h n` says every map object at address `≥ n`
only references map objects at addresses `≥ n`; it holds for the fragment of
the heap allocated after a given point, and is preserved by `insertH`, which
lets us conclude that an `insert` into a nil map never touches a
pre-existing map object.
-/

def HeapOk (h : GHeap) (n : Nat) : Prop :=
  ∀ i, n ≤ i → ∀ m, h.maps[i]? = some m → ∀ kv ∈ m, ∀ c, kv.2 = GVal.ref c → n ≤ c

theorem mem_setKeyG : ∀ (m : List (String × GVal)) (k : String) (v : GVal) (kv),
    kv ∈ setKeyG m k v → kv ∈ m ∨ kv = (k, v) := by
  intro m k v
  induction m with
  | nil =>
    intro kv hm
    simp [setKeyG] at hm
    right; exact hm
  | cons p rest ih =>
    intro kv hm
    obtain ⟨k', v'⟩ := p
    by_cases h0 : k' = k
    · simp [setKeyG, h0] at hm
      rcases hm with hm | hm
      · right; simp [hm]
      · left; simp [hm]
    · simp [setKeyG, h0] at hm
      rcases hm with hm | hm
      · left; simp [hm]
      · rcases ih kv hm with h | h
        · left; simp [h]
        · right; exact h

theorem lookupG_mem : ∀ {m : List (String × GVal)} {k : String} {v : GVal},
    lookupG m k = some v → (k, v) ∈ m := by
  intro m
  induction m with
  | nil => intro k v h; simp [lookupG] at h
  | cons p rest ih =>
    intro k v h
    obtain ⟨k', v'⟩ := p
    by_cases h0 : k' = k
    · simp [lookupG, h0] at h
      simp [h0, h]
    · simp [lookupG, h0] at h
      simp [ih h]

theorem hset_length (h : GHeap) (r : Nat) (k : String) (v : GVal) :
    (hset h r k v).maps.length = h.maps.length := by
  simp [hset]

theorem hset_getElem_ne (h : GHeap) {r i : Nat} (k : String) (v : GVal) (hir : r ≠ i) :
    (hset h r k v).maps[i]? = h.maps[i]? := by
  simp [hset, List.getElem?_set_ne hir]

theorem singleton_empty_getElem {i : Nat} {m' : List (String × GVal)}
    (hm' : [([] : List (String × GVal))][i]? = some m') : m' = [] := by
  cases i with
  | zero => simp at hm'; exact hm'
  | succ j => simp at hm'

theorem HeapOk_hset {h : GHeap} {n : Nat} (r : Nat) (k : String) (v : GVal)
    (hok : HeapOk h n) (hv : ∀ c, v = GVal.ref c → n ≤ c) :
    HeapOk (hset h r k v) n := by
  intro i hi m' hm' kv hkv c hc
  by_cases hir : r = i
  · subst hir
    by_cases hr : r < h.maps.length
    · have hm'' : m' = setKeyG (h.maps.getD r []) k v := by
        have hs : (hset h r k v).maps[r]? = some (setKeyG (h.maps.getD r []) k v) := by
          show (h.maps.set r _)[r]? = _
          exact List.getElem?_set_self hr
        rw [hs] at hm'
        exact (Option.some_inj.mp hm').symm
      obtain ⟨m₀, hm₀⟩ : ∃ m₀, h.maps[r]? = some m₀ :=
        ⟨h.maps[r], List.getElem?_eq_getElem hr⟩
      have hgd : h.maps.getD r [] = m₀ := by
        rw [List.getD_eq_getElem?_getD, hm₀]; rfl
      rw [hm'', hgd] at hkv
      rcases mem_setKeyG m₀ k v kv hkv with hmem | hkveq
      · exact hok r hi m₀ hm₀ kv hmem c hc
      · rw [hkveq] at hc; exact hv c hc
    · have hs : (hset h r k v).maps[r]? = none := by
        apply List.getElem?_eq_none
        rw [hset_length]; omega
      rw [hs] at hm'
      cases hm'
  · rw [hset_getElem_ne h k v hir] at hm'
    exact hok i hi m' hm' kv hkv c hc

theorem HeapOk_halloc {h : GHeap} {n : Nat} (hok : HeapOk h n) :
    HeapOk (halloc h).1 n := by
  intro i hi m' hm' kv hkv c hc
  by_cases hl : i < h.maps.length
  · rw [show (halloc h).1.maps = h.maps ++ [[]] from rfl, List.getElem?_append_left hl] at hm'
    exact hok i hi m' hm' kv hkv c hc
  · rw [show (halloc h).1.maps = h.maps ++ [[]] from rfl,
      List.getElem?_append_right (Nat.le_of_not_lt hl)] at hm'
    rw [singleton_empty_getElem hm'] at hkv
    cases hkv

theorem HeapOk_fresh (h : GHeap) : HeapOk (halloc h).1 h.maps.length := by
  intro i hi m' hm' kv hkv c hc
  rw [show (halloc h).1.maps = h.maps ++ [[]] from rfl,
    List.getElem?_append_right hi] at hm'
  rw [singleton_empty_getElem hm'] at hkv
  cases hkv

theorem insertH_frame (val : String) :
    ∀ (path : List String) (h : GHeap) (r n : Nat), n ≤ r → n ≤ h.maps.length →
      HeapOk h n →
      (∀ i, i < n → (insertH h (some r) val path).maps[i]? = h.maps[i]?) ∧
      HeapOk (insertH h (some r) val path) n ∧
      n ≤ (insertH h (some r) val path).maps.length := by
  intro path
  induction path with
  | nil => intro h r n _ hlen hok; exact ⟨fun _ _ => rfl, hok, hlen⟩
  | cons k rest ih =>
    intro h r n hnr hlen hok
    cases rest with
    | nil =>
      refine ⟨fun i hi => ?_, ?_, ?_⟩
      · show (hset h r k (GVal.str val)).maps[i]? = h.maps[i]?
        exact hset_getElem_ne h k (GVal.str val) (by omega)
      · show HeapOk (hset h r k (GVal.str val)) n
        exact HeapOk_hset r k (GVal.str val) hok (by intro c hc; cases hc)
      · show n ≤ (hset h r k (GVal.str val)).maps.length
        rw [hset_length]
        exact hlen
    | cons k₂ rest' =>
      have hred : insertH h (some r) val (k :: k₂ :: rest') =
          match hget h r k with
          | none =>
            insertH (hset (halloc h).1 r k (.ref (halloc h).2)) (some (halloc h).2) val
              (k₂ :: rest')
          | some (.ref c) => insertH h (some c) val (k₂ :: rest')
          | some (.str _) => h := rfl
      cases hg : hget h r k with
      | none =>
        rw [hred, hg]
        have h1 : HeapOk (hset (halloc h).1 r k (.ref (halloc h).2)) n := by
          apply HeapOk_hset r k _ (HeapOk_halloc hok)
          intro c hc
          cases hc
          show n ≤ h.maps.length
          exact hlen
        have h2 : n ≤ (hset (halloc h).1 r k (.ref (halloc h).2)).maps.length := by
          rw [hset_length]
          show n ≤ (h.maps ++ [[]]).length
          simp
          omega
        obtain ⟨f1, f2, f3⟩ := ih (hset (halloc h).1 r k (.ref (halloc h).2))
          (halloc h).2 n (hlen) h2 h1
        refine ⟨fun i hi => ?_, f2, f3⟩
        rw [f1 i hi, hset_getElem_ne _ k _ (by omega)]
        exact List.getElem?_append_left (by omega)
      | some gv =>
        cases gv with
        | str s => rw [hred, hg]; exact ⟨fun _ _ => rfl, hok, hlen⟩
        | ref c =>
          rw [hred, hg]
          have hrlt : r < h.maps.length := by
            by_contra hge
            have : h.maps[r]? = none := List.getElem?_eq_none (by omega)
            simp [hget, this] at hg
          obtain ⟨m₀, hm₀⟩ : ∃ m₀, h.maps[r]? = some m₀ :=
            ⟨h.maps[r], List.getElem?_eq_getElem hrlt⟩
          have hmem : (k, GVal.ref c) ∈ m₀ := by
            apply lookupG_mem
            simpa [hget, hm₀] using hg
          have hnc : n ≤ c := hok r hnr m₀ hm₀ (k, GVal.ref c) hmem c rfl
          exact ih h c n hnc hlen hok

/-- C10: calling `insert` with a nil destination map returns normally and has
no effect observable by the caller: every map object that existed before the
call is unchanged afterwards — even for a length-1 path, the write lands in a
freshly allocated map that the caller cannot reach. -/
theorem insert_nil_map_no_observable_effect (h : GHeap) (val : String)
    (path : List String) (i : Nat) (hi : i < h.maps.length) :
    (insertH h none val path).maps[i]? = h.maps[i]? := by
  cases path with
  | nil => rfl
  | cons k rest =>
    have hred : insertH h none val (k :: rest) =
        insertH (halloc h).1 (some (halloc h).2) val (k :: rest) := by
      cases rest <;> rfl
    rw [hred]
    obtain ⟨f1, _, _⟩ := insertH_frame val (k :: rest) (halloc h).1 (halloc h).2
      h.maps.length (Nat.le_refl _) (by show h.maps.length ≤ (h.maps ++ [[]]).length; simp)
      (HeapOk_fresh h)
    rw [f1 i hi]
    exact List.getElem?_append_left hi

theorem insert_nil_map_no_observable_effect_witness :
    (insertH ⟨[[("z", GVal.str "zz")]]⟩ none "y" ["a"]).maps[0]? =
      (⟨[[("z", GVal.str "zz")]]⟩ : GHeap).maps[0]? ∧
    (insertH ⟨[[("z", GVal.str "zz")]]⟩ none "y" ["a", "b"]).maps[0]? =
      (⟨[[("z", GVal.str "zz")]]⟩ : GHeap).maps[0]? :=
  ⟨insert_nil_map_no_observable_effect _ "y" ["a"] 0 (by decide),
    insert_nil_map_no_observable_effect _ "y" ["a", "b"] 0 (by decide)⟩

/-!
Sink lemmas for C6.
-/

theorem runWrites_all_ok {ok : Nat → Bool} {er : Nat → String} (hok : ∀ n, ok n = true) :
    ∀ (l : List String) (w : WState),
      runWrites ok er l w = (⟨w.out ++ l, w.idx + l.length⟩, none) := by
  intro l
  induction l with
  | nil => intro w; simp [runWrites]
  | cons s rest ih =>
    intro w
    rw [runWrites]
    simp only [wwrite, hok w.idx, if_true]
    rw [ih]
    simp
    omega

theorem runWrites_err {ok : Nat → Bool} {er : Nat → String} :
    ∀ (l : List String) (w w' : WState) (e : String),
      runWrites ok er l w = (w', some e) →
      ∃ i, w.idx ≤ i ∧ ok i = false ∧ e = er i ∧
        (∀ j, w.idx ≤ j → j < i → ok j = true) ∧
        w'.idx = i + 1 ∧ w'.out = w.out ++ l.take (i - w.idx) := by
  intro l
  induction l with
  | nil => intro w w' e h; simp [runWrites] at h
  | cons s rest ih =>
    intro w w' e h
    by_cases hw : ok w.idx = true
    · rw [runWrites] at h
      simp only [wwrite, hw, if_true] at h
      obtain ⟨i, hi1, hi2, hi3, hi4, hi5, hi6⟩ := ih _ _ _ h
      simp only at hi1 hi4 hi6
      refine ⟨i, by omega, hi2, hi3, ?_, hi5, ?_⟩
      · intro j hj1 hj2
        rcases Nat.eq_or_lt_of_le hj1 with he | hlt
        · rw [← he]; exact hw
        · exact hi4 j (by omega) hj2
      · rw [hi6, show i - w.idx = (i - (w.idx + 1)) + 1 from by omega]
        simp
    · rw [runWrites] at h
      simp only [wwrite, hw, Bool.false_eq_true, if_false] at h
      obtain ⟨h1, h2⟩ := Prod.mk.injEq .. ▸ h
      refine ⟨w.idx, Nat.le_refl _, by simpa using hw, ?_, ?_, ?_, ?_⟩
      · exact (Option.some_inj.mp h2).symm
      · intro j hj1 hj2; omega
      · rw [← h1]
      · rw [← h1]
        simp

theorem runWrites_append (ok : Nat → Bool) (er : Nat → String) :
    ∀ (l₁ l₂ : List String) (w : WState),
      runWrites ok er (l₁ ++ l₂) w =
        (match runWrites ok er l₁ w with
         | (w', none) => runWrites ok er l₂ w'
         | (w', some e) => (w', some e)) := by
  intro l₁
  induction l₁ with
  | nil => intro l₂ w; rfl
  | cons s rest ih =>
    intro l₂ w
    rw [List.cons_append]
    simp only [runWrites]
    rcases hw : wwrite ok er s w with ⟨w₁, e₁⟩
    cases e₁ with
    | none => exact ih l₂ w₁
    | some e => rfl

/-- Bridge: the direct translation of `format`'s control flow attempts
exactly the writes of `dictChunks` in order, aborting at the first
failure. -/
theorem fw_eq_aux (q : String → String) (ok : Nat → Bool) (er : Nat → String) :
    ∀ (n : Nat) (cs : Tree), sizeOf cs ≤ n →
      (∀ ks d w, entriesW q ok er cs ks d w =
        runWrites ok er (entriesChunks q cs ks d) w) ∧
      (∀ d w, formatW q ok er cs d w = runWrites ok er (dictChunks q cs d) w) := by
  intro n
  induction n with
  | zero =>
    intro cs h
    exact absurd h (by cases cs <;> simp)
  | succ n ih =>
    intro cs hcs
    have hE : ∀ ks d w, entriesW q ok er cs ks d w =
        runWrites ok er (entriesChunks q cs ks d) w := by
      intro ks
      induction ks with
      | nil =>
        intro d w
        rw [entriesW, entriesChunks_nil]
        rfl
      | cons k ks' ihk =>
        intro d w
        rw [entriesW]
        cases hl : lookupA cs k with
        | none =>
          rw [entriesChunks_cons_none _ _ _ hl]
          simp only [runWrites]
          rcases hw : wwrite ok er (tabs (d + 1) ++ q k ++ " = ") w with ⟨w₁, e₁⟩
          cases e₁ with
          | some e => rfl
          | none => exact ihk d w₁
        | some nd =>
          cases nd with
          | leaf v =>
            rw [entriesChunks_cons_leaf _ _ _ hl]
            simp only [runWrites]
            rcases hw : wwrite ok er (tabs (d + 1) ++ q k ++ " = ") w with ⟨w₁, e₁⟩
            cases e₁ with
            | some e => rfl
            | none =>
              simp only [runWrites]
              rcases h2 : wwrite ok er ("(\x22insertText:\x22, " ++ q v ++ ");\n") w₁
                with ⟨w₂, e₂⟩
              cases e₂ with
              | some e => rfl
              | none => exact ihk d w₂
          | node m =>
            rw [entriesChunks_cons_node _ _ _ hl]
            simp only [runWrites]
            have hm : sizeOf m ≤ n := by
              have hs := sizeOf_lookupA hl
              simp at hs
              omega
            rcases hw : wwrite ok er (tabs (d + 1) ++ q k ++ " = ") w with ⟨w₁, e₁⟩
            cases e₁ with
            | some e => rfl
            | none =>
              simp only []
              rw [(ih m hm).2, runWrites_append]
              rcases h2 : runWrites ok er (dictChunks q m (d + 1)) w₁ with ⟨w₂, e₂⟩
              cases e₂ with
              | some e => rfl
              | none => exact ihk d w₂
    refine ⟨hE, ?_⟩
    intro d w
    rw [formatW, dictChunks_eq, runWrites_append, runWrites_append, runWrites_append]
    simp only [runWrites]
    rcases h0 : wwrite ok er "\x7b\n" w with ⟨w₀, e₀⟩
    cases e₀ with
    | some e => rfl
    | none =>
      simp only []
      rw [hE]
      rcases h1 : runWrites ok er (entriesChunks q cs (sortedKeys cs) d) w₀ with ⟨w₁, e₁⟩
      cases e₁ with
      | some e => rfl
      | none =>
        simp only []
        rcases h2 : wwrite ok er (tabs d ++ "\x7d") w₁ with ⟨w₂, e₂⟩
        cases e₂ with
        | some e => rfl
        | none =>
          simp only []
          by_cases hd : d ≠ 0
          · rw [if_pos hd, if_pos hd]
            simp only [runWrites]
            rcases h3 : wwrite ok er ";" w₂ with ⟨w₃, e₃⟩
            cases e₃ with
            | some e => rfl
            | none =>
              simp only []
              rcases h4 : wwrite ok er "\n" w₃ with ⟨w₄, e₄⟩
              cases e₄ <;> rfl
          · rw [if_neg hd, if_neg hd]
            simp only [runWrites]
            rcases h4 : wwrite ok er "\n" w₂ with ⟨w₄, e₄⟩
            cases e₄ <;> rfl


theorem formatW_eq_runWrites (q : String → String) (ok : Nat → Bool) (er : Nat → String)
    (cs : Tree) (d : Nat) (w : WState) :
    formatW q ok er cs d w = runWrites ok er (dictChunks q cs d) w :=
  (fw_eq_aux q ok er (sizeOf cs) cs (Nat.le_refl _)).2 d w

/-- C6: if any write to the output sink fails during `format`, serialization
aborts at that write (the failing attempt is the last attempt, and only the
chunks before it were written) and `format` returns the sink's error for
that attempt unchanged; if every write succeeds, `format` returns no
error. -/
theorem format_write_error_aborts (q : String → String) (ok : Nat → Bool)
    (er : Nat → String) (cs : Tree) (d : Nat) :
    ((∀ n, ok n = true) → (formatW q ok er cs d ⟨[], 0⟩).2 = none) ∧
    (∀ e, (formatW q ok er cs d ⟨[], 0⟩).2 = some e →
      ∃ i, ok i = false ∧ e = er i ∧ (∀ j, j < i → ok j = true) ∧
        (formatW q ok er cs d ⟨[], 0⟩).1.idx = i + 1 ∧
        (formatW q ok er cs d ⟨[], 0⟩).1.out = (dictChunks q cs d).take i) := by
  constructor
  · intro hok
    rw [formatW_eq_runWrites, runWrites_all_ok hok]
  · intro e he
    rcases hfw : runWrites ok er (dictChunks q cs d) ⟨[], 0⟩ with ⟨w', e2⟩
    have he2 : e2 = some e := by
      rw [show (formatW q ok er cs d ⟨[], 0⟩).2 = e2 from by
        rw [formatW_eq_runWrites, hfw]] at he
      exact he
    subst he2
    obtain ⟨i, _, h2, h3, h4, h5, h6⟩ := runWrites_err _ _ _ _ hfw
    refine ⟨i, h2, h3, fun j hj => h4 j (Nat.zero_le _) hj, ?_, ?_⟩
    · rw [formatW_eq_runWrites, hfw]; exact h5
    · rw [formatW_eq_runWrites, hfw]
      simpa using h6

/-- Concrete sink that fails at the third write attempt, for the C6
witness. -/
def okW (n : Nat) : Bool := decide (n < 2)

/-- Errors of the concrete sink, for the C6 witness. -/
def erW (n : Nat) : String := if n = 2 then "boom" else "other"

theorem format_write_error_aborts_witness :
    (formatW quoteStr (fun _ => true) erW [("a", Node.leaf "x")] 0 ⟨[], 0⟩).2 = none ∧
    ∃ i, okW i = false ∧ "boom" = erW i ∧ (∀ j, j < i → okW j = true) ∧
      (formatW quoteStr okW erW [("a", Node.leaf "x")] 0 ⟨[], 0⟩).1.idx = i + 1 ∧
      (formatW quoteStr okW erW [("a", Node.leaf "x")] 0 ⟨[], 0⟩).1.out =
        (dictChunks quoteStr [("a", Node.leaf "x")] 0).take i := by
  have hch : dictChunks quoteStr [("a", Node.leaf "x")] 0 =
      ["\x7b\n", "\t\x22a\x22 = ", "(\x22insertText:\x22, \x22x\x22);\n", "\x7d", "\n"] := by
    rw [dictChunks_eq]
    rw [show sortedKeys [("a", Node.leaf "x")] = ["a"] from rfl]
    rw [entriesChunks_cons_leaf _ _ _ (by rfl), entriesChunks_nil]
    rfl
  constructor
  · exact (format_write_error_aborts quoteStr (fun _ => true) erW
      [("a", Node.leaf "x")] 0).1 (fun _ => rfl)
  · exact (format_write_error_aborts quoteStr okW erW [("a", Node.leaf "x")] 0).2 "boom"
      (by rw [formatW_eq_runWrites, hch]; rfl)

/-- C7: serializing the empty tree at depth 0 produces exactly the four
characters of `"{\n}\n"`, for any quoting function. -/
theorem format_empty_tree (q : String → String) : fmtDict q [] 0 = "\x7b\n\x7d\n" := by
  rw [fmtDict, dictChunks_eq, show sortedKeys [] = [] from rfl, entriesChunks_nil]
  rfl

theorem lookupA_isSome_of_mem {cs : Tree} {k : String} (h : k ∈ keysOf cs) :
    ∃ v, lookupA cs k = some v := by
  induction cs with
  | nil => simp [keysOf] at h
  | cons p rest ih =>
    obtain ⟨k', v'⟩ := p
    by_cases h0 : k' = k
    · exact ⟨v', by simp [lookupA, h0]⟩
    · simp only [keysOf, List.map_cons, List.mem_cons] at h
      rcases h with h | h
      · exact absurd h.symm h0
      · obtain ⟨v, hv⟩ := ih h
        exact ⟨v, by simp [lookupA, h0, hv]⟩

theorem lookupA_mem {cs : Tree} {k : String} {v : Node} (h : lookupA cs k = some v) :
    (k, v) ∈ cs := by
  induction cs with
  | nil => simp [lookupA] at h
  | cons p rest ih =>
    obtain ⟨k', v'⟩ := p
    by_cases h0 : k' = k
    · simp [lookupA, h0] at h
      simp [h0, h]
    · simp [lookupA, h0] at h
      simp [ih h]

theorem entryLines_append {q : String → String} :
    ∀ {d : Nat} {b₁ : List String}, EntryLines q d b₁ →
      ∀ {b₂ : List String}, EntryLines q d b₂ → EntryLines q d (b₁ ++ b₂) := by
  intro d b₁ h₁
  induction h₁ with
  | nil d => intro b₂ h₂; simpa using h₂
  | leaf d k v rest hr ih => intro b₂ h₂; exact .leaf d k v _ (ih h₂)
  | dict d k body rest hb hr ihb ihr =>
    intro b₂ h₂
    have hd := EntryLines.dict d k body (rest ++ b₂) hb (ihr h₂)
    simpa [List.append_assoc] using hd

/-- Justification of the insertion-sort model of `sort.Strings`: a list of
strings that is a permutation of the keys and is sorted under `strLe` is
unique, so every correct sorting algorithm — including the one `sort.Strings`
uses — produces exactly `sortedKeys`. -/
theorem sortedKeys_unique (cs : Tree) (l : List String)
    (hp : l.Perm (keysOf cs)) (hs : List.Pairwise (fun a b => strLe a b = true) l) :
    l = sortedKeys cs :=
  List.eq_of_perm_of_sorted (hp.trans (List.perm_insertionSort _ _).symm) hs
    (List.sorted_insertionSort _ _)

theorem sortedKeys_unique_example :
    ["a", "b"] = sortedKeys [("b", Node.leaf "x"), ("a", Node.leaf "y")] :=
  sortedKeys_unique _ _ (by decide) (by decide)

theorem mergeBraceNl : ("\x7b\n" : String) = "\x7b" ++ "\n" := rfl

theorem mergeSemiNl : (");\n" : String) = ");" ++ "\n" := rfl

theorem mergeEqParen : (" = (\x22insertText:\x22, " : String) = " = " ++ "(\x22insertText:\x22, " := rfl

theorem mergeEqBrace : (" = \x7b" : String) = " = " ++ "\x7b" := rfl

theorem mergeCloseSemi : ("\x7d;" : String) = "\x7d" ++ ";" := rfl

theorem dict_structure_aux (q : String → String) :
    ∀ (n : Nat) (cs : Tree) (d : Nat), sizeOf cs ≤ n →
      ∃ body, EntryLines q d body ∧
        fmtDict q cs d =
          joinLines ("\x7b" :: body ++ [tabs d ++ (if d = 0 then "\x7d" else "\x7d;")]) := by
  intro n
  induction n with
  | zero =>
    intro cs d h
    exact absurd h (by cases cs <;> simp)
  | succ n ih =>
    intro cs d hcs
    have inner : ∀ ks : List String, (∀ k ∈ ks, k ∈ keysOf cs) →
        ∃ body, EntryLines q d body ∧
          concatL (entriesChunks q cs ks d) = joinLines body := by
      intro ks
      induction ks with
      | nil =>
        intro _
        exact ⟨[], .nil d, by rw [entriesChunks_nil]; rfl⟩
      | cons k ks' ihk =>
        intro hmem
        obtain ⟨v, hv⟩ := lookupA_isSome_of_mem (hmem k (by simp))
        obtain ⟨body', hb2, hb1⟩ := ihk (fun k' hk' => hmem k' (by simp [hk']))
        cases v with
        | leaf lv =>
          refine ⟨(tabs (d + 1) ++ q k ++ " = (\x22insertText:\x22, " ++ q lv ++ ");") :: body',
            .leaf d k lv body' hb2, ?_⟩
          rw [entriesChunks_cons_leaf _ _ _ hv]
          simp only [concatL_cons, hb1, joinLines_cons, mergeSemiNl, mergeEqParen,
            String.append_assoc, String.append_empty]
        | node m =>
          have hsz : sizeOf m ≤ n := by
            have hlt := sizeOf_lookupA hv
            simp at hlt
            omega
          obtain ⟨ibody, h2, h1⟩ := ih m (d + 1) hsz
          rw [if_neg (Nat.succ_ne_zero d)] at h1
          have h1' : concatL (dictChunks q m (d + 1)) =
              joinLines ("\x7b" :: ibody ++ [tabs (d + 1) ++ "\x7d;"]) := h1
          refine ⟨(tabs (d + 1) ++ q k ++ " = \x7b") :: ibody ++ (tabs (d + 1) ++ "\x7d;") :: body',
            .dict d k ibody body' h2 hb2, ?_⟩
          rw [entriesChunks_cons_node _ _ _ hv]
          simp only [concatL_cons, concatL_append, h1', hb1, joinLines_cons, joinLines_append,
            joinLines_nil, mergeEqBrace, String.append_assoc, String.append_empty]
    obtain ⟨body, hb2, hb1⟩ := inner (sortedKeys cs)
      (fun k hk => ((List.perm_insertionSort _ _).mem_iff).mp hk)
    refine ⟨body, hb2, ?_⟩
    rw [fmtDict, dictChunks_eq]
    by_cases hd : d = 0
    · subst hd
      rw [show (if (0 : Nat) ≠ 0 then [";"] else ([] : List String)) = [] from rfl,
        show (if (0 : Nat) = 0 then "\x7d" else "\x7d;") = "\x7d" from rfl]
      simp only [concatL_append, concatL_cons, concatL_nil, hb1, joinLines_cons,
        joinLines_append, joinLines_nil, mergeBraceNl, String.append_assoc,
        String.append_empty]
    · rw [show (if d ≠ 0 then [";"] else ([] : List String)) = [";"] from if_pos hd,
        show (if d = 0 then "\x7d" else "\x7d;") = "\x7d;" from if_neg hd, mergeCloseSemi]
      simp only [concatL_append, concatL_cons, concatL_nil, hb1, joinLines_cons,
        joinLines_append, joinLines_nil, mergeBraceNl, String.append_assoc,
        String.append_empty]

/-- C4: in the output of `format`, the body of every block consists of entry
lines satisfying `EntryLines`: leaf assignment lines indented by exactly
`depth+1` tabs and ending in `);`, and nested blocks opening on their key
line whose closing brace line is indented by exactly the nested block's depth
and is immediately followed by a semicolon.  The block's own closing brace is
indented by exactly `depth` tabs and carries a semicolon exactly when
`depth ≠ 0` (none at the root), and every line — including every closing
brace — is followed by a newline. -/
theorem format_line_structure (q : String → String) (cs : Tree) (d : Nat) :
    ∃ body, EntryLines q d body ∧
      fmtDict q cs d =
        joinLines ("\x7b" :: body ++ [tabs d ++ (if d = 0 then "\x7d" else "\x7d;")]) :=
  dict_structure_aux q (sizeOf cs) cs d (Nat.le_refl _)

theorem mem_keysOf_of_lookupA {cs : Tree} {k : String} {v : Node}
    (h : lookupA cs k = some v) : k ∈ keysOf cs := by
  have hm := lookupA_mem h
  exact List.mem_map.mpr ⟨(k, v), hm, rfl⟩

theorem OEquiv_some_left {v : Node} {o : Option Node} (h : OEquiv (some v) o) :
    ∃ w, o = some w ∧ EquivT v w := by
  cases o with
  | none => cases h
  | some w =>
    cases h with
    | some a b hab => exact ⟨w, rfl, hab⟩

theorem OEquiv_some_right {o : Option Node} {v : Node} (h : OEquiv o (some v)) :
    ∃ w, o = some w ∧ EquivT w v := by
  cases o with
  | none => cases h
  | some w =>
    cases h with
    | some a b hab => exact ⟨w, rfl, hab⟩

theorem sortedKeys_eq_of_equiv {cs₁ cs₂ : Tree}
    (hnd₁ : (keysOf cs₁).Nodup) (hnd₂ : (keysOf cs₂).Nodup)
    (he : ∀ k, OEquiv (lookupA cs₁ k) (lookupA cs₂ k)) :
    sortedKeys cs₁ = sortedKeys cs₂ := by
  have hmem : ∀ k, k ∈ keysOf cs₁ ↔ k ∈ keysOf cs₂ := by
    intro k
    constructor
    · intro hk
      obtain ⟨v, hv⟩ := lookupA_isSome_of_mem hk
      have hek := he k
      rw [hv] at hek
      obtain ⟨w, hw, _⟩ := OEquiv_some_left hek
      exact mem_keysOf_of_lookupA hw
    · intro hk
      obtain ⟨v, hv⟩ := lookupA_isSome_of_mem hk
      have hek := he k
      rw [hv] at hek
      obtain ⟨w, hw, _⟩ := OEquiv_some_right hek
      exact mem_keysOf_of_lookupA hw
  have hperm : (keysOf cs₁).Perm (keysOf cs₂) :=
    (List.perm_ext_iff_of_nodup hnd₁ hnd₂).mpr hmem
  apply List.eq_of_perm_of_sorted (r := fun a b => strLe a b = true)
  · exact (List.perm_insertionSort _ _).trans (hperm.trans (List.perm_insertionSort _ _).symm)
  · exact List.sorted_insertionSort _ _
  · exact List.sorted_insertionSort _ _

theorem dict_congr_aux (q : String → String) :
    ∀ (n : Nat) (cs₁ cs₂ : Tree) (d : Nat), sizeOf cs₁ ≤ n →
      WFn (.node cs₁) → WFn (.node cs₂) →
      (∀ k, OEquiv (lookupA cs₁ k) (lookupA cs₂ k)) →
      dictChunks q cs₁ d = dictChunks q cs₂ d := by
  intro n
  induction n with
  | zero =>
    intro cs₁ cs₂ d h
    exact absurd h (by cases cs₁ <;> simp)
  | succ n ih =>
    intro cs₁ cs₂ d hsz hw₁ hw₂ he
    have hnd₁ : (keysOf cs₁).Nodup := by cases hw₁ with | node _ h _ => exact h
    have hnd₂ : (keysOf cs₂).Nodup := by cases hw₂ with | node _ h _ => exact h
    have hch₁ : ∀ kv ∈ cs₁, WFn kv.2 := by cases hw₁ with | node _ _ h => exact h
    have hch₂ : ∀ kv ∈ cs₂, WFn kv.2 := by cases hw₂ with | node _ _ h => exact h
    have hsk := sortedKeys_eq_of_equiv hnd₁ hnd₂ he
    have inner : ∀ ks : List String, (∀ k ∈ ks, k ∈ keysOf cs₁) →
        entriesChunks q cs₁ ks d = entriesChunks q cs₂ ks d := by
      intro ks
      induction ks with
      | nil => intro _; rw [entriesChunks_nil, entriesChunks_nil]
      | cons k ks' ihk =>
        intro hmem
        have htail := ihk (fun k' hk' => hmem k' (by simp [hk']))
        obtain ⟨v₁, hv₁⟩ := lookupA_isSome_of_mem (hmem k (by simp))
        have hek := he k
        rw [hv₁] at hek
        obtain ⟨b, hv₂, hab⟩ := OEquiv_some_left hek
        cases hab with
        | leaf lv =>
          rw [entriesChunks_cons_leaf _ _ _ hv₁, entriesChunks_cons_leaf _ _ _ hv₂, htail]
        | node m₁ m₂ hm =>
            have hm₁ : sizeOf m₁ ≤ n := by
              have hlt := sizeOf_lookupA hv₁
              simp at hlt
              omega
            have hwm₁ : WFn (.node m₁) := hch₁ (k, .node m₁) (lookupA_mem hv₁)
            have hwm₂ : WFn (.node m₂) := hch₂ (k, .node m₂) (lookupA_mem hv₂)
            rw [entriesChunks_cons_node _ _ _ hv₁, entriesChunks_cons_node _ _ _ hv₂, htail,
              ih m₁ m₂ (d + 1) hm₁ hwm₁ hwm₂ hm]
    rw [dictChunks_eq, dictChunks_eq, ← hsk,
      inner (sortedKeys cs₁) (fun k hk => ((List.perm_insertionSort _ _).mem_iff).mp hk)]

theorem setKey_cons_self (k : String) (v v' : Node) (rest : Tree) :
    setKey ((k, v') :: rest) k v = (k, v) :: rest := by
  simp [setKey]

theorem setKey_cons_ne {k k' : String} (h : k' ≠ k) (v v' : Node) (rest : Tree) :
    setKey ((k', v') :: rest) k v = (k', v') :: setKey rest k v := by
  simp [setKey, h]

theorem mem_keysOf_setKey :
    ∀ (t : Tree) (k : String) (v : Node) (x : String),
      x ∈ keysOf (setKey t k v) ↔ x ∈ keysOf t ∨ x = k := by
  intro t k v
  induction t with
  | nil => intro x; simp [setKey, keysOf]
  | cons p rest ih =>
    intro x
    obtain ⟨k', v'⟩ := p
    by_cases h0 : k' = k
    · subst h0
      rw [setKey_cons_self]
      simp only [keysOf, List.map_cons, List.mem_cons]
      tauto
    · rw [setKey_cons_ne h0]
      simp only [keysOf, List.map_cons, List.mem_cons]
      rw [show List.map Prod.fst (setKey rest k v) = keysOf (setKey rest k v) from rfl, ih x]
      tauto

theorem nodup_keys_setKey {t : Tree} (k : String) (v : Node)
    (h : (keysOf t).Nodup) : (keysOf (setKey t k v)).Nodup := by
  induction t with
  | nil => simp [setKey, keysOf]
  | cons p rest ih =>
    obtain ⟨k', v'⟩ := p
    simp only [keysOf, List.map_cons, List.nodup_cons] at h
    by_cases h0 : k' = k
    · subst h0
      rw [setKey_cons_self]
      simp only [keysOf, List.map_cons, List.nodup_cons]
      exact ⟨h.1, h.2⟩
    · rw [setKey_cons_ne h0]
      simp only [keysOf, List.map_cons, List.nodup_cons]
      refine ⟨?_, ih h.2⟩
      rw [show List.map Prod.fst (setKey rest k v) = keysOf (setKey rest k v) from rfl,
        mem_keysOf_setKey]
      rintro (hm | rfl)
      · exact h.1 hm
      · exact h0 rfl

theorem mem_setKey_cases :
    ∀ {t : Tree} {k : String} {v : Node} {kv : String × Node},
      kv ∈ setKey t k v → kv ∈ t ∨ kv = (k, v) := by
  intro t k v
  induction t with
  | nil =>
    intro kv h
    simp [setKey] at h
    right
    exact h
  | cons p rest ih =>
    intro kv h
    obtain ⟨k', v'⟩ := p
    by_cases h0 : k' = k
    · subst h0
      rw [setKey_cons_self] at h
      rcases List.mem_cons.mp h with h | h
      · right; exact h
      · left; simp [h]
    · rw [setKey_cons_ne h0] at h
      rcases List.mem_cons.mp h with h | h
      · left; simp [h]
      · rcases ih h with h' | h'
        · left; simp [h']
        · right; exact h'

/-- Every tree the program actually builds is well-formed: `insert` preserves
the no-duplicate-keys invariant, so C1's hypotheses hold for every tree built
from the empty map. -/
theorem WFn_insert :
    ∀ (p : List String) (t : Tree) (v : String), WFn (.node t) →
      WFn (.node (insert t v p)) := by
  intro p
  induction p with
  | nil => intro t v h; exact h
  | cons k rest ih =>
    intro t v h
    obtain ⟨hnd, hch⟩ : (keysOf t).Nodup ∧ ∀ kv ∈ t, WFn kv.2 := by
      cases h with | node _ h1 h2 => exact ⟨h1, h2⟩
    cases rest with
    | nil =>
      refine .node _ (nodup_keys_setKey k _ hnd) ?_
      intro kv hkv
      rcases mem_setKey_cases hkv with hm | rfl
      · exact hch kv hm
      · exact .leaf v
    | cons k₂ rest' =>
      cases hl : lookupA t k with
      | none =>
        simp only [insert, hl]
        refine .node _ (nodup_keys_setKey k _ hnd) ?_
        intro kv hkv
        rcases mem_setKey_cases hkv with hm | rfl
        · exact hch kv hm
        · exact ih [] v (.node [] (by simp [keysOf]) (by simp))
      | some nd =>
        cases nd with
        | leaf w => simpa [insert, hl] using h
        | node m =>
          simp only [insert, hl]
          refine .node _ (nodup_keys_setKey k _ hnd) ?_
          intro kv hkv
          rcases mem_setKey_cases hkv with hm | rfl
          · exact hch kv hm
          · exact ih m v (hch (k, .node m) (lookupA_mem hl))

/-- Map equality is reflexive, so C1 applies in particular to serializing the
very same tree twice. -/
theorem EquivT_refl : ∀ (v : Node), EquivT v v := by
  have aux : ∀ (n : Nat) (v : Node), sizeOf v ≤ n → EquivT v v := by
    intro n
    induction n with
    | zero =>
      intro v h
      exact absurd h (by cases v <;> simp)
    | succ n ih =>
      intro v hv
      cases v with
      | leaf s => exact .leaf s
      | node cs =>
        refine .node cs cs ?_
        intro k
        cases hl : lookupA cs k with
        | none => exact .none
        | some w =>
          refine .some w w (ih w ?_)
          have hlt := sizeOf_lookupA hl
          simp at hv
          omega
  exact fun v => aux (sizeOf v) v (Nat.le_refl _)

/-- C1: serializing is deterministic and insertion-order independent: any two
well-formed trees that are equal as Go maps — regardless of the order their
entries were inserted in — produce byte-identical `format` output, and the
key sequence emitted at every nesting level is in ascending lexicographic
(byte/code-point) order. -/
theorem format_deterministic_sorted (q : String → String) (cs₁ cs₂ : Tree) (d : Nat)
    (h₁ : WFn (.node cs₁)) (h₂ : WFn (.node cs₂)) (he : EquivT (.node cs₁) (.node cs₂)) :
    fmtDict q cs₁ d = fmtDict q cs₂ d ∧
    ∀ cs : Tree, List.Pairwise (fun a b => strLe a b = true) (sortedKeys cs) := by
  constructor
  · cases he with
    | node _ _ hk =>
      exact congrArg concatL (dict_congr_aux q (sizeOf cs₁) cs₁ cs₂ d (Nat.le_refl _) h₁ h₂ hk)
  · intro cs
    exact List.sorted_insertionSort _ _

theorem format_deterministic_sorted_witness :
    fmtDict quoteStr [("b", Node.leaf "x"), ("a", Node.leaf "y")] 0 =
      fmtDict quoteStr [("a", Node.leaf "y"), ("b", Node.leaf "x")] 0 ∧
    ∀ cs : Tree, List.Pairwise (fun a b => strLe a b = true) (sortedKeys cs) := by
  have hw₁ : WFn (.node [("b", Node.leaf "x"), ("a", Node.leaf "y")]) := by
    refine .node _ (by decide) ?_
    intro kv hkv
    simp only [List.mem_cons, List.not_mem_nil, or_false] at hkv
    rcases hkv with rfl | rfl
    · exact .leaf "x"
    · exact .leaf "y"
  have hw₂ : WFn (.node [("a", Node.leaf "y"), ("b", Node.leaf "x")]) := by
    refine .node _ (by decide) ?_
    intro kv hkv
    simp only [List.mem_cons, List.not_mem_nil, or_false] at hkv
    rcases hkv with rfl | rfl
    · exact .leaf "y"
    · exact .leaf "x"
  have heq : EquivT (.node [("b", Node.leaf "x"), ("a", Node.leaf "y")])
      (.node [("a", Node.leaf "y"), ("b", Node.leaf "x")]) := by
    refine .node _ _ ?_
    intro k
    by_cases ha : "a" = k
    · rw [← ha]
      exact .some _ _ (.leaf "y")
    · by_cases hb : "b" = k
      · rw [← hb]
        exact .some _ _ (.leaf "x")
      · simp only [lookupA, if_neg ha, if_neg hb]
        exact .none
  exact format_deterministic_sorted quoteStr _ _ 0 hw₁ hw₂ heq

/-- C5: `quote` escapes per C-style string-literal conventions — quote and
backslash characters become two-character backslash escapes, non-printable
control characters are rendered as backslash escapes, printable
non-special characters pass through with their case untouched — and the
whole escaped token is passed through the uppercase mapping exactly when the
escaped text begins with the Unicode escape introducer `"\u`, which happens
exactly when the first character of the input is a non-printable,
non-special, non-control character below 0x10000; otherwise the output is
`strconv.Quote`'s result with no case change. -/
theorem quote_escapes_and_uppercases (isPrint : Char → Bool) (up : Char → Char)
    (s : List Char) :
    (∀ c ∈ s, (c = '\x22' ∨ c = '\\') → escapeRune isPrint c = ['\\', c]) ∧
    (∀ c ∈ s, (c.toNat < 32 ∨ c.toNat = 127) → isPrint c = false →
      ∃ t, escapeRune isPrint c = '\\' :: t) ∧
    (∀ c ∈ s, isPrint c = true → c ≠ '\x22' → c ≠ '\\' → escapeRune isPrint c = [c]) ∧
    (match s with
     | [] => quote isPrint up s = goQuote isPrint s
     | c :: _ =>
       if c ≠ '\x22' ∧ c ≠ '\\' ∧ isPrint c = false ∧ 32 ≤ c.toNat ∧ c.toNat ≠ 127 ∧
           c.toNat < 65536
       then quote isPrint up s = (goQuote isPrint s).map up
       else quote isPrint up s = goQuote isPrint s) := by
  refine ⟨?_, ?_, ?_, ?_⟩
  · intro c _ hc
    rcases hc with rfl | rfl <;> simp [escapeRune]
  · intro c _ hctrl hp
    have h1 : ¬(c = '\x22' ∨ c = '\\') := by
      rintro (rfl | rfl) <;> revert hctrl <;> decide
    simp only [escapeRune, h1, hp]
    simp only [Bool.false_eq_true, if_false]
    split_ifs <;> exact ⟨_, rfl⟩
  · intro c _ hp h22 hbs
    have h1 : ¬(c = '\x22' ∨ c = '\\') := by
      rintro (rfl | rfl)
      · exact h22 rfl
      · exact hbs rfl
    simp [escapeRune, h1, hp]
  · cases s with
    | nil => rfl
    | cons c rest =>
      show if c ≠ '\x22' ∧ c ≠ '\\' ∧ isPrint c = false ∧ 32 ≤ c.toNat ∧ c.toNat ≠ 127 ∧
          c.toNat < 65536
        then quote isPrint up (c :: rest) = (goQuote isPrint (c :: rest)).map up
        else quote isPrint up (c :: rest) = goQuote isPrint (c :: rest)
      by_cases h1 : c = '\x22' ∨ c = '\\'
      · rcases h1 with rfl | rfl
        · rw [if_neg (fun hcond => hcond.1 rfl)]
          simp [quote, goQuote, escapeRune]
        · rw [if_neg (fun hcond => hcond.2.1 rfl)]
          simp [quote, goQuote, escapeRune]
      · have hbs : c ≠ '\\' := fun h => h1 (Or.inr h)
        have h22 : c ≠ '\x22' := fun h => h1 (Or.inl h)
        by_cases h2 : isPrint c = true
        · rw [if_neg (fun hcond => by rw [hcond.2.2.1] at h2; exact Bool.noConfusion h2)]
          simp [quote, goQuote, escapeRune, h1, h2, hbs, h22]
        · by_cases h3 : c = '\x07'
          · subst h3
            rw [if_neg (fun hcond => absurd hcond.2.2.2.1 (by decide))]
            simp [quote, goQuote, escapeRune, h2]
          · by_cases h4 : c = '\x08'
            · subst h4
              rw [if_neg (fun hcond => absurd hcond.2.2.2.1 (by decide))]
              simp [quote, goQuote, escapeRune, h2]
            · by_cases h5 : c = '\x0c'
              · subst h5
                rw [if_neg (fun hcond => absurd hcond.2.2.2.1 (by decide))]
                simp [quote, goQuote, escapeRune, h2]
              · by_cases h6 : c = '\n'
                · subst h6
                  rw [if_neg (fun hcond => absurd hcond.2.2.2.1 (by decide))]
                  simp [quote, goQuote, escapeRune, h2]
                · by_cases h7 : c = '\x0d'
                  · subst h7
                    rw [if_neg (fun hcond => absurd hcond.2.2.2.1 (by decide))]
                    simp [quote, goQuote, escapeRune, h2]
                  · by_cases h8 : c = '\t'
                    · subst h8
                      rw [if_neg (fun hcond => absurd hcond.2.2.2.1 (by decide))]
                      simp [quote, goQuote, escapeRune, h2]
                    · by_cases h9 : c = '\x0b'
                      · subst h9
                        rw [if_neg (fun hcond => absurd hcond.2.2.2.1 (by decide))]
                        simp [quote, goQuote, escapeRune, h2]
                      · by_cases h10 : c.toNat < 32 ∨ c.toNat = 127
                        · rw [if_neg (fun hcond => by
                            rcases h10 with h | h
                            · exact absurd hcond.2.2.2.1 (by omega)
                            · exact absurd hcond.2.2.2.2.1 (by omega))]
                          simp [quote, goQuote, escapeRune, h1, h2, h3, h4, h5, h6, h7, h8,
                            h9, h10]
                        · by_cases h11 : c.toNat < 65536
                          · rw [if_pos ⟨fun h => h1 (Or.inl h), fun h => h1 (Or.inr h),
                              by simpa using h2, by omega, by omega, h11⟩]
                            simp [quote, goQuote, escapeRune, h1, h2, h3, h4, h5, h6, h7,
                              h8, h9, h10, h11]
                          · rw [if_neg (fun hcond => absurd hcond.2.2.2.2.2 h11)]
                            simp [quote, goQuote, escapeRune, h1, h2, h3, h4, h5, h6, h7,
                              h8, h9, h10, h11]

theorem quote_escapes_and_uppercases_witness :
    escapeRune isPrintAscii '\\' = ['\\', '\\'] ∧
    (∃ t, escapeRune isPrintAscii '\n' = '\\' :: t) ∧
    quote isPrintAscii Char.toUpper [Char.ofNat 8232] =
      (goQuote isPrintAscii [Char.ofNat 8232]).map Char.toUpper := by
  have hA := quote_escapes_and_uppercases isPrintAscii Char.toUpper ['\\', '\n']
  have hB := quote_escapes_and_uppercases isPrintAscii Char.toUpper [Char.ofNat 8232]
  refine ⟨hA.1 '\\' (by simp) (Or.inr rfl), hA.2.1 '\n' (by simp) (by decide) (by decide), ?_⟩
  have hfour : if Char.ofNat 8232 ≠ '\x22' ∧ Char.ofNat 8232 ≠ '\\' ∧
      isPrintAscii (Char.ofNat 8232) = false ∧ 32 ≤ (Char.ofNat 8232).toNat ∧
      (Char.ofNat 8232).toNat ≠ 127 ∧ (Char.ofNat 8232).toNat < 65536
    then quote isPrintAscii Char.toUpper [Char.ofNat 8232] =
      (goQuote isPrintAscii [Char.ofNat 8232]).map Char.toUpper
    else quote isPrintAscii Char.toUpper [Char.ofNat 8232] =
      goQuote isPrintAscii [Char.ofNat 8232] := hB.2.2.2
  rw [if_pos (by refine ⟨by decide, by decide, by decide, by decide, by decide, by decide⟩)]
    at hfour
  exact hfour

/-!
Concrete evaluations matching the repository's own test cases (the `empty`,
`one by one`, `one by two` and `two by two` cases of the test file): the
model reproduces the expected mappings and formatted output verbatim.
-/

/-- Test case `empty` of the repository's test file. -/
theorem format_test_empty : fmtDict quoteStr [] 0 = "\x7b\n\x7d\n" := by
  rw [fmtDict, dictChunks_eq]
  rw [show sortedKeys [] = [] from rfl, entriesChunks_nil]
  rfl

/-- Test case `one by one` of the repository's test file. -/
theorem format_test_one_by_one :
    insert [] "text" ["1"] = [("1", .leaf "text")] ∧
    fmtDict quoteStr [("1", .leaf "text")] 0 =
      "\x7b\n\t\x221\x22 = (\x22insertText:\x22, \x22text\x22);\n\x7d\n" := by
  refine ⟨rfl, ?_⟩
  rw [fmtDict, dictChunks_eq]
  rw [show sortedKeys [("1", .leaf "text")] = ["1"] from rfl]
  rw [entriesChunks_cons_leaf _ _ _ (by rfl), entriesChunks_nil]
  rfl

/-- Test case `one by two` of the repository's test file. -/
theorem format_test_one_by_two :
    insert [] "text" ["1", "2"] = [("1", .node [("2", .leaf "text")])] ∧
    fmtDict quoteStr [("1", .node [("2", .leaf "text")])] 0 =
      "\x7b\n\t\x221\x22 = \x7b\n\t\t\x222\x22 = (\x22insertText:\x22, \x22text\x22);\n\t\x7d;\n\x7d\n" := by
  refine ⟨rfl, ?_⟩
  rw [fmtDict, dictChunks_eq]
  rw [show sortedKeys [("1", .node [("2", .leaf "text")])] = ["1"] from rfl]
  rw [entriesChunks_cons_node _ _ _ (by rfl), entriesChunks_nil, dictChunks_eq]
  rw [show sortedKeys [("2", Node.leaf "text")] = ["2"] from rfl]
  rw [entriesChunks_cons_leaf _ _ _ (by rfl), entriesChunks_nil]
  rfl

/-- Mapping of test case `two by two` of the repository's test file. -/
theorem insert_test_two_by_two :
    insert (insert [] "text1" ["1", "2"]) "text2" ["1", "3"] =
      [("1", .node [("2", .leaf "text1"), ("3", .leaf "text2")])] := rfl

end Xcompose
